import Mathlib

/-!
# QOTD server (`qotd.go`): quote selection, RFC 865 formatting, quote parsing, start-up configuration

A shallow embedding of the pure parts of `qotd.go`:

* `randomQuoteFormattedForDelivery` (selection of a quote and strict-mode truncation),
* the parse step of `loadQuotesFromFile` / `loadQuotesFromHTTP`
  (`strings.Split(data, "\n%\n")`),
* the configuration computed at the start of the action of `main`.

Go strings are byte sequences and `len` is the byte length, so a Go string is a list of bytes.
Panics are results of type `Except Panic`.
-/

set_option autoImplicit false

namespace Qotd

/-- A byte of a Go string. -/
abbrev Byte := UInt8

/-- A Go `string`: a sequence of bytes; `len(s)` is `s.length`. -/
abbrev GoString := List Byte

/-- The run-time panics that the modelled code can raise. -/
inductive Panic where
  /-- The panic of `rand.Intn(n)` for `n <= 0`: "invalid argument to Intn". -/
  | invalidArgumentToIntn
  /-- The panic of `xs[i]` for `i` outside `0 <= i < len(xs)`. -/
  | indexOutOfRange
  /-- The panic of `b[lo:hi]` for `hi > len(b)`. -/
  | sliceBoundsOutOfRange
  deriving DecidableEq, Repr

deriving instance DecidableEq for Except

/-- The constant `RFC865MaxLength = 512`. -/
def RFC865MaxLength : Nat := 512

/-- The string literal `"..."` (three bytes `0x2E`). -/
def ellipsis : GoString := [46, 46, 46]

/-- The string literal `"\r\n"` (bytes `0x0D 0x0A`). -/
def crlf : GoString := [13, 10]

/-- The string literal `"\n%\n"` (bytes `0x0A 0x25 0x0A`), the separator of quotes in a source. -/
def delimiter : GoString := [10, 37, 10]

/-- The byte `'%'`. -/
def percent : Byte := 37

/-- The call `rand.Intn(n)` of `math/rand`: panics for `n <= 0`, otherwise reduces the raw value
`r` drawn from the generator modulo `n`.  The raw draw `r` is the only source of randomness and is
a parameter. -/
def Intn (n : Nat) (r : Nat) : Except Panic Nat :=
  if n = 0 then .error .invalidArgumentToIntn else .ok (r % n)

/-- The index expression `quotes[i]`: panics when `i` is out of range. -/
def index (quotes : List GoString) (i : Nat) : Except Panic GoString :=
  match quotes[i]? with
  | some q => .ok q
  | none => .error .indexOutOfRange

/-- The slice expression `[]byte(s)[0:hi]`: panics when `hi` exceeds the length. -/
def sliceTo (s : GoString) (hi : Nat) : Except Panic GoString :=
  if hi ≤ s.length then .ok (s.take hi) else .error .sliceBoundsOutOfRange

/-- The function `randomQuoteFormattedForDelivery(quotes, strictMode)`; `r` is the raw value
drawn by `rand.Intn`.  Returns the formatted text and the index of the quote. -/
def randomQuoteFormattedForDelivery (quotes : List GoString) (strictMode : Bool) (r : Nat) :
    Except Panic (GoString × Nat) := do
  let quoteId ← Intn quotes.length r
  let quote ← index quotes quoteId
  let quote ←
    if strictMode && decide (quote.length > RFC865MaxLength) then do
      -- 3 bytes for ..., 2 bytes for closing \r\n
      let quote ← sliceTo quote (RFC865MaxLength - 6)
      pure (quote ++ ellipsis)
    else
      pure quote
  let quote := quote ++ crlf
  pure (quote, quoteId)

/-! ## The parse step: `strings.Split(data, "\n%\n")`

`strings.Split`, `strings.Index` and `strings.Count` belong to the Go standard library; they are
modelled after their library source for a non-empty separator, the only case this program uses. -/

/-- The call `strings.HasPrefix(s, prefix)`. -/
def HasPrefix (s pre : GoString) : Bool :=
  pre.isPrefixOf s

/-- The call `strings.Index(s, substr)`: the index of the first instance of `substr` in `s`;
`none` stands for the result `-1`. -/
def Index : GoString → GoString → Option Nat
  | [], substr => if HasPrefix [] substr then some 0 else none
  | c :: s, substr =>
    if HasPrefix (c :: s) substr then some 0
    else (Index s substr).map (fun i => i + 1)

/-- The loop of `strings.Count(s, substr)` for a non-empty `substr`:
`for { i := Index(s, substr); if i == -1 { return n }; n++; s = s[i+len(substr):] }`.
The first argument bounds the number of iterations. -/
def countLoop (substr : GoString) : Nat → GoString → Nat → Nat
  | 0, _, n => n
  | fuel + 1, s, n =>
    match Index s substr with
    | none => n
    | some i => countLoop substr fuel (s.drop (i + substr.length)) (n + 1)

/-- The call `strings.Count(s, substr)` for a non-empty `substr`: the number of non-overlapping
instances of `substr` in `s`.  Every iteration of the loop removes at least one byte of `s`, so
`len(s) + 1` iterations are never used up (`countLoop_fuel`). -/
def Count (s substr : GoString) : Nat :=
  countLoop substr (s.length + 1) s 0

/-- The loop of `genSplit` with `sepSave = 0`:
`for i < n { m := Index(s, sep); if m < 0 { break }; a[i] = s[:m]; s = s[m+len(sep):]; i++ }`
followed by `a[i] = s; return a[:i+1]`.  The first argument is `n - i`. -/
def splitLoop (sep : GoString) : Nat → GoString → List GoString
  | 0, s => [s]
  | k + 1, s =>
    match Index s sep with
    | none => [s]
    | some m => s.take m :: splitLoop sep k (s.drop (m + sep.length))

/-- The call `genSplit(s, sep, 0, -1)` for a non-empty `sep` (the early returns for `n == 0` and
`sep == ""` are not taken): `n = Count(s, sep) + 1`, capped at `len(s) + 1`, then `n--` and the
loop. -/
def genSplit (s sep : GoString) : List GoString :=
  let n := Count s sep + 1
  let n := if n > s.length + 1 then s.length + 1 else n
  splitLoop sep (n - 1) s

/-- The call `strings.Split(s, sep)`, which is `genSplit(s, sep, 0, -1)`. -/
def Split (s sep : GoString) : List GoString :=
  genSplit s sep

/-- The parse step shared by `loadQuotesFromFile` and `loadQuotesFromHTTP`:
`quotes := strings.Split(string(data), "\n%\n")`. -/
def parseQuotes (data : GoString) : List GoString :=
  Split data delimiter

/-- The call `strings.Join(elems, sep)`: the elements concatenated with `sep` between them. -/
def Join : List GoString → GoString → GoString
  | [], _ => []
  | [x], _ => x
  | x :: y :: rest, sep => x ++ sep ++ Join (y :: rest) sep

/-! ## The configuration computed by the action of `main` -/

/-- The command-line flags read by the action: `--port`, `--strict`, `--no-tcp`, `--no-udp`,
`--no-mdns`. -/
structure Flags where
  port : GoString
  strict : Bool
  noTcp : Bool
  noUdp : Bool
  noMdns : Bool
  deriving DecidableEq, Repr

/-- The local variables of the action after the `if strictMode { ... }` block. -/
structure Config where
  port : GoString
  strictMode : Bool
  startUdp : Bool
  startTcp : Bool
  advertiseService : Bool
  deriving DecidableEq, Repr

/-- The string literal `"17"`. -/
def port17 : GoString := [49, 55]

/-- The assignments of the action from `port := c.String("port")` to the end of
`if strictMode { port = "17"; startTcp = true; startUdp = true }`. -/
def effectiveConfig (c : Flags) : Config :=
  let port := c.port
  let strictMode := c.strict
  let startUdp := !c.noUdp
  let startTcp := !c.noTcp
  let advertiseService := !c.noMdns
  if strictMode then
    { port := port17, strictMode := strictMode, startUdp := true, startTcp := true,
      advertiseService := advertiseService }
  else
    { port := port, strictMode := strictMode, startUdp := startUdp, startTcp := startTcp,
      advertiseService := advertiseService }

/-- How the action ends: it keeps serving in the busy loop, or it calls `log.Fatal`. -/
inductive Startup where
  /-- The branch `if startTcp || startUdp { for { time.Sleep(...) } }`, with the listeners
  started before it. -/
  | serving (udp tcp : Bool)
  /-- The branch `log.Fatal("Server not started on TCP or UDP, ...")`. -/
  | fatalNoTransport
  deriving DecidableEq, Repr

/-- The tail of the action: `if startUdp { go listenForUdp }`, `if startTcp { go listenForTcp }`
and the final `if startTcp || startUdp { ... } else { log.Fatal(...) }`. -/
def startup (cfg : Config) : Startup :=
  if cfg.startTcp || cfg.startUdp then .serving cfg.startUdp cfg.startTcp
  else .fatalNoTransport


/-! ## Selection and formatting -/

theorem Intn_ok (n r : Nat) (h : n ≠ 0) : Intn n r = .ok (r % n) := by
  simp [Intn, h]

/-- Every index that `rand.Intn(n)` returns is below `n`. -/
theorem Intn_lt (n r i : Nat) (h : Intn n r = .ok i) : i < n := by
  unfold Intn at h
  split at h
  · cases h
  · rename_i hn
    cases h
    exact Nat.mod_lt _ (Nat.pos_of_ne_zero hn)

/-- Every index below `n` is returned by `rand.Intn(n)` for some raw draw. -/
theorem Intn_surj (n i : Nat) (h : i < n) : Intn n i = .ok i := by
  have hn : n ≠ 0 := by omega
  rw [Intn_ok n i hn, Nat.mod_eq_of_lt h]

theorem Intn_eq_mod (n r i : Nat) (h : Intn n r = .ok i) : i = r % n := by
  unfold Intn at h
  split at h
  · cases h
  · cases h
    rfl

theorem index_ok (quotes : List GoString) (i : Nat) (h : i < quotes.length) :
    index quotes i = .ok quotes[i] := by
  simp [index, List.getElem?_eq_getElem h]

/-- The text built by `randomQuoteFormattedForDelivery` from the selected quote. -/
theorem randomQuote_of_draw (quotes : List GoString) (strictMode : Bool) (r i : Nat)
    (hi : i < quotes.length) (hdraw : Intn quotes.length r = .ok i) :
    randomQuoteFormattedForDelivery quotes strictMode r =
      .ok ((if strictMode && decide (quotes[i].length > 512)
              then quotes[i].take 506 ++ ellipsis else quotes[i]) ++ crlf, i) := by
  unfold randomQuoteFormattedForDelivery
  rw [hdraw]
  simp only [bind, Except.bind, index_ok quotes i hi, RFC865MaxLength]
  by_cases hc : (strictMode && decide (quotes[i].length > 512)) = true
  · have hlen : 506 ≤ quotes[i].length := by
      simp only [Bool.and_eq_true, decide_eq_true_eq] at hc
      omega
    simp [hc, sliceTo, hlen, pure, Except.pure]
  · simp [hc, pure, Except.pure]

/-! ## Facts about `Index`, `Count` and the split loop -/

theorem HasPrefix_iff (s pre : GoString) : HasPrefix s pre = true ↔ pre <+: s := by
  simp [HasPrefix]

/-- A successful `Index` points at an instance of `substr`, and no instance starts earlier. -/
theorem Index_some_spec (substr : GoString) :
    ∀ (s : GoString) (m : Nat), Index s substr = some m →
      substr <+: s.drop m ∧ ∀ j, j < m → ¬ substr <+: s.drop j := by
  intro s
  induction s with
  | nil =>
    intro m h
    unfold Index at h
    split at h
    · cases h
      rename_i hp
      exact ⟨(HasPrefix_iff _ _).mp hp, fun j hj => absurd hj (Nat.not_lt_zero j)⟩
    · cases h
  | cons c s ih =>
    intro m h
    unfold Index at h
    split at h
    · cases h
      rename_i hp
      exact ⟨(HasPrefix_iff _ _).mp hp, fun j hj => absurd hj (Nat.not_lt_zero j)⟩
    · rename_i hp
      cases hI : Index s substr with
      | none => rw [hI] at h; cases h
      | some i =>
        rw [hI] at h
        simp only [Option.map_some', Option.some.injEq] at h
        subst h
        obtain ⟨h1, h2⟩ := ih i hI
        refine ⟨by simpa using h1, fun j hj => ?_⟩
        cases j with
        | zero =>
          intro hpre
          exact hp ((HasPrefix_iff _ _).mpr (by simpa using hpre))
        | succ j =>
          have := h2 j (by omega)
          simpa using this

/-- A failed `Index` means that no instance of `substr` starts anywhere in `s`. -/
theorem Index_none_spec (substr : GoString) :
    ∀ (s : GoString), Index s substr = none → ∀ j, ¬ substr <+: s.drop j := by
  intro s
  induction s with
  | nil =>
    intro h j
    unfold Index at h
    split at h
    · cases h
    · rename_i hp
      intro hpre
      exact hp ((HasPrefix_iff _ _).mpr (by simpa using hpre))
  | cons c s ih =>
    intro h j
    unfold Index at h
    split at h
    · cases h
    · rename_i hp
      cases hI : Index s substr with
      | some i => rw [hI] at h; cases h
      | none =>
        cases j with
        | zero =>
          intro hpre
          exact hp ((HasPrefix_iff _ _).mpr (by simpa using hpre))
        | succ j =>
          have := ih hI j
          simpa using this

/-- An instance of `substr` inside `s` starts at some offset of `s`. -/
theorem prefix_drop_of_infix (substr s : GoString) (h : substr <:+: s) :
    ∃ j, j + substr.length ≤ s.length ∧ substr <+: s.drop j := by
  obtain ⟨a, b, hab⟩ := h
  refine ⟨a.length, ?_, ?_⟩
  · rw [← hab]
    simp only [List.length_append]
    omega
  · rw [← hab, List.append_assoc, List.drop_left]
    exact List.prefix_append _ _

theorem Index_none_not_infix (substr s : GoString) (h : Index s substr = none) :
    ¬ substr <:+: s := by
  intro hin
  obtain ⟨j, _, hj⟩ := prefix_drop_of_infix substr s hin
  exact Index_none_spec substr s h j hj

/-- The part of `s` before the first instance of a non-empty `substr` holds no instance. -/
theorem Index_some_take_not_infix (substr s : GoString) (m : Nat) (hne : substr ≠ [])
    (h : Index s substr = some m) : ¬ substr <:+: s.take m := by
  intro hin
  obtain ⟨j, hjlen, hj⟩ := prefix_drop_of_infix substr (s.take m) hin
  have hpos : 0 < substr.length := List.length_pos.mpr hne
  have hlt : j < m := by
    have : (s.take m).length ≤ m := by
      rw [List.length_take]
      exact Nat.min_le_left _ _
    omega
  apply (Index_some_spec substr s m h).2 j hlt
  obtain ⟨t, ht⟩ := hj
  refine ⟨t ++ s.drop m, ?_⟩
  rw [← List.append_assoc, ht]
  have hjm : j ≤ m := Nat.le_of_lt hlt
  conv_rhs => rw [← List.take_append_drop m s]
  rw [List.drop_append_of_le_length]
  rw [List.length_take]
  have := (Index_some_spec substr s m h).1.length_le
  rw [List.length_drop] at this
  omega

/-- After a successful `Index` for a non-empty `substr`, the rest of `s` is shorter than `s`. -/
theorem Index_some_drop_lt (substr s : GoString) (m : Nat) (hne : substr ≠ [])
    (h : Index s substr = some m) : (s.drop (m + substr.length)).length < s.length := by
  have hpos : 0 < substr.length := List.length_pos.mpr hne
  have := (Index_some_spec substr s m h).1.length_le
  rw [List.length_drop] at this ⊢
  omega

theorem countLoop_acc (substr : GoString) :
    ∀ (fuel : Nat) (s : GoString) (n : Nat),
      countLoop substr fuel s n = n + countLoop substr fuel s 0 := by
  intro fuel
  induction fuel with
  | zero => intro s n; simp [countLoop]
  | succ fuel ih =>
    intro s n
    unfold countLoop
    cases hI : Index s substr with
    | none => simp
    | some i =>
      simp only
      rw [ih _ (n + 1), ih _ (0 + 1)]
      omega

/-- The bound `len(s) + 1` on the iterations of the loop of `Count` is never reached: any two
bounds above `len(s)` give the same count. -/
theorem countLoop_fuel (substr : GoString) (hne : substr ≠ []) :
    ∀ (f1 f2 : Nat) (s : GoString) (n : Nat), s.length < f1 → s.length < f2 →
      countLoop substr f1 s n = countLoop substr f2 s n := by
  intro f1
  induction f1 with
  | zero => intro f2 s n h1; exact absurd h1 (Nat.not_lt_zero _)
  | succ f1 ih =>
    intro f2 s n h1 h2
    cases f2 with
    | zero => exact absurd h2 (Nat.not_lt_zero _)
    | succ f2 =>
      unfold countLoop
      cases hI : Index s substr with
      | none => rfl
      | some i =>
        simp only
        have := Index_some_drop_lt substr s i hne hI
        exact ih f2 _ _ (by omega) (by omega)

theorem Count_of_Index_none (substr s : GoString) (h : Index s substr = none) :
    Count s substr = 0 := by
  simp [Count, countLoop, h]

/-- The loop of `Count`, unrolled once: one instance found, then the count of the rest. -/
theorem Count_of_Index_some (substr s : GoString) (m : Nat) (hne : substr ≠ [])
    (h : Index s substr = some m) :
    Count s substr = Count (s.drop (m + substr.length)) substr + 1 := by
  have hlt := Index_some_drop_lt substr s m hne h
  unfold Count
  conv_lhs => unfold countLoop
  simp only [h]
  rw [countLoop_acc, countLoop_fuel substr hne s.length ((s.drop (m + substr.length)).length + 1)
    _ 0 hlt (Nat.lt_succ_self _)]
  omega

/-- A non-empty `substr` has at most `len(s)` non-overlapping instances in `s`, so the cap
`n > len(s) + 1` of `genSplit` does not change `n`. -/
theorem Count_le_length (substr : GoString) (hne : substr ≠ []) :
    ∀ (k : Nat) (s : GoString), s.length ≤ k → Count s substr ≤ s.length := by
  intro k
  induction k with
  | zero =>
    intro s hs
    cases hI : Index s substr with
    | none => rw [Count_of_Index_none substr s hI]; exact Nat.zero_le _
    | some m =>
      have := Index_some_drop_lt substr s m hne hI
      omega
  | succ k ih =>
    intro s hs
    cases hI : Index s substr with
    | none => rw [Count_of_Index_none substr s hI]; exact Nat.zero_le _
    | some m =>
      have hlt := Index_some_drop_lt substr s m hne hI
      rw [Count_of_Index_some substr s m hne hI]
      have := ih (s.drop (m + substr.length)) (by omega)
      omega

/-- For a non-empty separator `genSplit` runs its loop with `n - 1 = Count(s, sep)`. -/
theorem genSplit_eq (s sep : GoString) (hne : sep ≠ []) :
    genSplit s sep = splitLoop sep (Count s sep) s := by
  have := Count_le_length sep hne s.length s (Nat.le_refl _)
  unfold genSplit
  simp only
  rw [if_neg (by omega)]
  rfl

theorem splitLoop_ne_nil (sep : GoString) (k : Nat) (s : GoString) : splitLoop sep k s ≠ [] := by
  cases k with
  | zero => simp [splitLoop]
  | succ k =>
    unfold splitLoop
    cases Index s sep <;> simp

/-- When the loop may run at least `Count(s, sep)` times, no piece it produces holds `sep`. -/
theorem splitLoop_not_infix (sep : GoString) (hne : sep ≠ []) :
    ∀ (k : Nat) (s : GoString), Count s sep ≤ k →
      ∀ q, q ∈ splitLoop sep k s → ¬ sep <:+: q := by
  intro k
  induction k with
  | zero =>
    intro s hk q hq
    cases hI : Index s sep with
    | none =>
      simp only [splitLoop, List.mem_singleton] at hq
      subst hq
      exact Index_none_not_infix sep _ hI
    | some m =>
      rw [Count_of_Index_some sep s m hne hI] at hk
      omega
  | succ k ih =>
    intro s hk q hq
    unfold splitLoop at hq
    cases hI : Index s sep with
    | none =>
      simp only [hI, List.mem_singleton] at hq
      subst hq
      exact Index_none_not_infix sep _ hI
    | some m =>
      simp only [hI, List.mem_cons] at hq
      rw [Count_of_Index_some sep s m hne hI] at hk
      rcases hq with hq | hq
      · subst hq
        exact Index_some_take_not_infix sep s m hne hI
      · exact ih _ (by omega) q hq

theorem delimiter_ne_nil : delimiter ≠ [] := by
  simp [delimiter]

theorem parseQuotes_eq (data : GoString) :
    parseQuotes data = splitLoop delimiter (Count data delimiter) data := by
  unfold parseQuotes Split
  exact genSplit_eq data delimiter delimiter_ne_nil

theorem Index_eq_none_of_not_infix (substr s : GoString) (h : ¬ substr <:+: s) :
    Index s substr = none := by
  cases hI : Index s substr with
  | none => rfl
  | some m =>
    exfalso
    apply h
    exact (Index_some_spec substr s m hI).1.isInfix.trans (List.drop_suffix m s).isInfix

theorem drop_append_append (x d r : GoString) :
    (x ++ d ++ r).drop (x.length + d.length) = r := by
  rw [← List.length_append]
  exact List.drop_left (x ++ d) r

/-- A text without the byte `'%'` holds no instance of `"\n%\n"`. -/
theorem Index_delimiter_of_no_percent (x : GoString) (hx : percent ∉ x) :
    Index x delimiter = none := by
  apply Index_eq_none_of_not_infix
  intro hin
  apply hx
  apply hin.subset
  simp [delimiter, percent]

/-- In `x ++ "\n%\n" ++ rest`, where `x` has no byte `'%'`, the first instance of `"\n%\n"` is the
one written after `x`. -/
theorem Index_delimiter_append (rest : GoString) :
    ∀ (x : GoString), percent ∉ x → Index (x ++ delimiter ++ rest) delimiter = some x.length := by
  intro x
  induction x with
  | nil =>
    intro _
    simp [Index, HasPrefix, delimiter]
  | cons c t ih =>
    intro hx
    have hc : percent ∉ t := fun h => hx (List.mem_cons_of_mem _ h)
    have hpre : HasPrefix (c :: t ++ delimiter ++ rest) delimiter = false := by
      cases t with
      | nil => simp [HasPrefix, delimiter, List.isPrefixOf]
      | cons d t =>
        have hd : percent ≠ d := by
          intro h
          apply hx
          rw [h]
          simp
        have hd2 : (37 : Byte) ≠ d := hd
        simp [HasPrefix, delimiter, List.isPrefixOf, hd2]
    have hstep : Index (c :: t ++ delimiter ++ rest) delimiter
        = (Index (t ++ delimiter ++ rest) delimiter).map (fun i => i + 1) := by
      show Index (c :: (t ++ delimiter ++ rest)) delimiter = _
      have hpre2 : HasPrefix (c :: (t ++ delimiter ++ rest)) delimiter = false := hpre
      rw [Index, hpre2]
      rfl
    rw [hstep, ih hc]
    simp

/-- Splitting a join of `'%'`-free texts gives the texts back, when the loop may run at least
`len(l) - 1` times. -/
theorem splitLoop_Join :
    ∀ (l : List GoString), l ≠ [] → (∀ x ∈ l, percent ∉ x) →
      ∀ k, l.length ≤ k + 1 → splitLoop delimiter k (Join l delimiter) = l := by
  intro l
  induction l with
  | nil => intro h; exact absurd rfl h
  | cons x rest ih =>
    intro _ hp k hk
    have hx : percent ∉ x := hp x (List.mem_cons_self _ _)
    cases rest with
    | nil =>
      have hI := Index_delimiter_of_no_percent x hx
      cases k with
      | zero => simp [Join, splitLoop]
      | succ k => simp [Join, splitLoop, hI]
    | cons y rest =>
      have hI := Index_delimiter_append (Join (y :: rest) delimiter) x hx
      have hrest : ∀ z ∈ y :: rest, percent ∉ z := fun z hz => hp z (List.mem_cons_of_mem _ hz)
      cases k with
      | zero => simp at hk
      | succ k =>
        have hk2 : (y :: rest).length ≤ k + 1 := by
          simp only [List.length_cons] at hk ⊢
          omega
        have ih2 := ih (List.cons_ne_nil _ _) hrest k hk2
        show splitLoop delimiter (k + 1) (x ++ delimiter ++ Join (y :: rest) delimiter) = _
        rw [splitLoop]
        simp only [hI]
        rw [List.append_assoc, List.take_left, ← List.append_assoc, drop_append_append, ih2]

/-- The join of `n` texts free of `'%'` holds `n - 1` instances of `"\n%\n"`. -/
theorem Count_Join :
    ∀ (l : List GoString), (∀ x ∈ l, percent ∉ x) →
      Count (Join l delimiter) delimiter = l.length - 1 := by
  intro l
  induction l with
  | nil =>
    intro _
    decide
  | cons x rest ih =>
    intro hp
    have hx : percent ∉ x := hp x (List.mem_cons_self _ _)
    cases rest with
    | nil =>
      show Count x delimiter = 0
      exact Count_of_Index_none _ _ (Index_delimiter_of_no_percent x hx)
    | cons y rest =>
      have hI := Index_delimiter_append (Join (y :: rest) delimiter) x hx
      have hrest : ∀ z ∈ y :: rest, percent ∉ z := fun z hz => hp z (List.mem_cons_of_mem _ hz)
      show Count (x ++ delimiter ++ Join (y :: rest) delimiter) delimiter = _
      rw [Count_of_Index_some _ _ _ delimiter_ne_nil hI, drop_append_append, ih hrest]
      simp

/-- C1: in strict mode, when the selected quote `quotes[i]` is longer than 512 bytes, the
returned text is the first 506 bytes of `quotes[i]`, then `"..."`, then `"\r\n"`; its length is
511, which is below 512, it ends with `"...\r\n"`, and its first 506 bytes are those of the
quote. -/
theorem strict_long_quote_truncated (quotes : List GoString) (r i : Nat)
    (hi : i < quotes.length) (hdraw : Intn quotes.length r = .ok i)
    (hlen : 512 < quotes[i].length) :
    randomQuoteFormattedForDelivery quotes true r
        = .ok (quotes[i].take 506 ++ ellipsis ++ crlf, i) ∧
      (quotes[i].take 506 ++ ellipsis ++ crlf).length = 511 ∧
      (quotes[i].take 506 ++ ellipsis ++ crlf).length < 512 ∧
      (ellipsis ++ crlf) <:+ (quotes[i].take 506 ++ ellipsis ++ crlf) ∧
      (quotes[i].take 506 ++ ellipsis ++ crlf).take 506 = quotes[i].take 506 := by
  have hlen506 : (quotes[i].take 506).length = 506 := by
    rw [List.length_take]
    omega
  have htot : (quotes[i].take 506 ++ ellipsis ++ crlf).length = 511 := by
    simp only [List.length_append, hlen506, ellipsis, crlf, List.length_cons, List.length_nil]
  refine ⟨?_, htot, by omega, ?_, ?_⟩
  · rw [randomQuote_of_draw quotes true r i hi hdraw]
    have hc : decide (quotes[i].length > 512) = true := by simpa using hlen
    simp [hc]
  · exact ⟨quotes[i].take 506, by simp⟩
  · rw [List.append_assoc, List.take_append_of_le_length (by omega)]
    rw [List.take_of_length_le (by omega)]

/-- Witness of C1: a store with one quote of 513 bytes. -/
theorem strict_long_quote_truncated_witness :
    512 < (List.replicate 513 (65 : Byte)).length ∧
      randomQuoteFormattedForDelivery [List.replicate 513 65] true 0
        = .ok ((List.replicate 513 65).take 506 ++ ellipsis ++ crlf, 0) :=
  ⟨by rw [List.length_replicate]; decide,
    (strict_long_quote_truncated [List.replicate 513 65] 0 0 (by decide) (by decide)
      (by rw [List.getElem_cons_zero, List.length_replicate]; decide)).1⟩

/-- C2: in strict mode, when the selected quote `quotes[i]` has at most 512 bytes (the empty quote
included), the returned text is `quotes[i]` followed by `"\r\n"`. -/
theorem strict_short_quote_unchanged (quotes : List GoString) (r i : Nat)
    (hi : i < quotes.length) (hdraw : Intn quotes.length r = .ok i)
    (hlen : quotes[i].length ≤ 512) :
    randomQuoteFormattedForDelivery quotes true r = .ok (quotes[i] ++ crlf, i) ∧
      (quotes[i] = [] → randomQuoteFormattedForDelivery quotes true r = .ok (crlf, i)) := by
  have hc : decide (quotes[i].length > 512) = false := by simpa using hlen
  have h : randomQuoteFormattedForDelivery quotes true r = .ok (quotes[i] ++ crlf, i) := by
    rw [randomQuote_of_draw quotes true r i hi hdraw]
    simp [hc]
  refine ⟨h, fun he => ?_⟩
  rw [h, he, List.nil_append]

/-- Witness of C2: a store of two quotes, the second one empty, and a draw that selects it. -/
theorem strict_short_quote_unchanged_witness :
    randomQuoteFormattedForDelivery [[65, 66], []] true 3 = .ok ([] ++ crlf, 1) ∧
      randomQuoteFormattedForDelivery [[65, 66], []] true 3 = .ok (crlf, 1) :=
  ⟨(strict_short_quote_unchanged [[65, 66], []] 3 1 (by decide) (by decide) (by decide)).1,
    (strict_short_quote_unchanged [[65, 66], []] 3 1 (by decide) (by decide) (by decide)).2 rfl⟩

/-- C3, evaluation at the failing input: in strict mode a store whose only quote has 512 bytes
yields that quote followed by `"\r\n"`, a text of 514 bytes, above the cap of 512. -/
theorem strict_cap_exceeded_by_512_byte_quote :
    randomQuoteFormattedForDelivery [List.replicate 512 65] true 0
        = .ok (List.replicate 512 65 ++ crlf, 0) ∧
      (List.replicate 512 65 ++ crlf).length = 514 ∧
      ¬ (List.replicate 512 65 ++ crlf).length ≤ RFC865MaxLength := by
  have hlen : (List.replicate 512 (65 : Byte) ++ crlf).length = 514 := by
    rw [List.length_append, List.length_replicate]
    rfl
  refine ⟨?_, hlen, ?_⟩
  · rw [randomQuote_of_draw [List.replicate 512 65] true 0 0 (by decide) (by decide)]
    have hc : decide (([List.replicate 512 (65 : Byte)][0]).length > 512) = false := by
      rw [List.getElem_cons_zero, List.length_replicate]
      decide
    rw [hc]
    rfl
  · rw [hlen]
    decide

/-- C4: with strict mode off, the returned text is `quotes[i]` followed by `"\r\n"` whatever the
length of `quotes[i]`, so its length is `len(quotes[i]) + 2`. -/
theorem nonstrict_quote_unchanged (quotes : List GoString) (r i : Nat)
    (hi : i < quotes.length) (hdraw : Intn quotes.length r = .ok i) :
    randomQuoteFormattedForDelivery quotes false r = .ok (quotes[i] ++ crlf, i) ∧
      (quotes[i] ++ crlf).length = quotes[i].length + 2 := by
  refine ⟨?_, by simp [crlf]⟩
  rw [randomQuote_of_draw quotes false r i hi hdraw]
  simp

/-- Witness of C4: a quote of 600 bytes is returned whole, in a text of 602 bytes. -/
theorem nonstrict_quote_unchanged_witness :
    randomQuoteFormattedForDelivery [[65], List.replicate 600 66] false 5
        = .ok (List.replicate 600 66 ++ crlf, 1) ∧
      (List.replicate 600 (66 : Byte) ++ crlf).length = (List.replicate 600 (66 : Byte)).length + 2 :=
  nonstrict_quote_unchanged [[65], List.replicate 600 66] 5 1 (by decide) (by decide)

/-- C5: for a non-empty store and any raw draw, `randomQuoteFormattedForDelivery` returns an index
`i < len(quotes)`, the lookup `quotes[i]` succeeds, and the returned text is the formatting of
that very quote: truncated to 506 bytes plus `"..."` when strict mode is on and the quote is longer
than 512 bytes, unchanged otherwise, and followed by `"\r\n"`. -/
theorem selected_index_in_range (quotes : List GoString) (strictMode : Bool) (r : Nat)
    (hne : quotes ≠ []) :
    ∃ (i : Nat) (hi : i < quotes.length),
      Intn quotes.length r = .ok i ∧
      index quotes i = .ok quotes[i] ∧
      randomQuoteFormattedForDelivery quotes strictMode r =
        .ok ((if strictMode && decide (quotes[i].length > RFC865MaxLength)
                then quotes[i].take (RFC865MaxLength - 6) ++ ellipsis else quotes[i]) ++ crlf,
             i) := by
  have hn : quotes.length ≠ 0 := by
    intro h
    exact hne (List.length_eq_zero.mp h)
  have hi : r % quotes.length < quotes.length := Nat.mod_lt _ (Nat.pos_of_ne_zero hn)
  exact ⟨r % quotes.length, hi, Intn_ok _ _ hn, index_ok _ _ hi,
    randomQuote_of_draw quotes strictMode r _ hi (Intn_ok _ _ hn)⟩

/-- Witness of C5: a store of three quotes and the raw draw 7, which selects index 1. -/
theorem selected_index_in_range_witness :
    ∃ (i : Nat) (hi : i < [[65], [66], [67]].length),
      Intn [[65], [66], [67]].length 7 = .ok i ∧
      index [[65], [66], [67]] i = .ok [[65], [66], [67]][i] ∧
      randomQuoteFormattedForDelivery [[65], [66], [67]] true 7 =
        .ok ((if true && decide (([[65], [66], [67]][i] : GoString).length > RFC865MaxLength)
                then ([[65], [66], [67]][i] : GoString).take (RFC865MaxLength - 6) ++ ellipsis
                else [[65], [66], [67]][i]) ++ crlf, i) :=
  selected_index_in_range [[65], [66], [67]] true 7 (by decide)

/-- C6: for the empty store, with either strict-mode flag and any raw draw,
`randomQuoteFormattedForDelivery` ends in the panic of `rand.Intn(0)` and returns no
(text, index) pair. -/
theorem empty_store_panics (strictMode : Bool) (r : Nat) :
    randomQuoteFormattedForDelivery [] strictMode r = .error .invalidArgumentToIntn ∧
      ∀ p : GoString × Nat, randomQuoteFormattedForDelivery [] strictMode r ≠ .ok p := by
  have h : randomQuoteFormattedForDelivery [] strictMode r = .error .invalidArgumentToIntn := by
    simp [randomQuoteFormattedForDelivery, Intn, bind, Except.bind]
  refine ⟨h, fun p hp => ?_⟩
  rw [h] at hp
  cases hp

/-- C9: with `--strict` the configuration has port `"17"`, TCP and UDP enabled, and start-up
reaches the serving loop, whatever the port and the `--no-tcp` / `--no-udp` flags; without
`--strict` the port is the given one, TCP is enabled iff `--no-tcp` is unset, UDP is enabled iff
`--no-udp` is unset, and start-up is fatal iff both `--no-tcp` and `--no-udp` are set. -/
theorem strict_overrides_toggles (port : GoString) (noTcp noUdp noMdns : Bool) :
    (effectiveConfig ⟨port, true, noTcp, noUdp, noMdns⟩).port = port17 ∧
      (effectiveConfig ⟨port, true, noTcp, noUdp, noMdns⟩).startTcp = true ∧
      (effectiveConfig ⟨port, true, noTcp, noUdp, noMdns⟩).startUdp = true ∧
      startup (effectiveConfig ⟨port, true, noTcp, noUdp, noMdns⟩) = .serving true true ∧
      startup (effectiveConfig ⟨port, true, noTcp, noUdp, noMdns⟩) ≠ .fatalNoTransport ∧
      (effectiveConfig ⟨port, false, noTcp, noUdp, noMdns⟩).port = port ∧
      ((effectiveConfig ⟨port, false, noTcp, noUdp, noMdns⟩).startTcp = true ↔ noTcp = false) ∧
      ((effectiveConfig ⟨port, false, noTcp, noUdp, noMdns⟩).startUdp = true ↔ noUdp = false) ∧
      (startup (effectiveConfig ⟨port, false, noTcp, noUdp, noMdns⟩) = .fatalNoTransport ↔
        (noTcp = true ∧ noUdp = true)) := by
  cases noTcp <;> cases noUdp <;> simp [effectiveConfig, startup]

/-- C8: no quote produced by splitting a source text on `"\n%\n"` holds `"\n%\n"` as a
substring. -/
theorem parsed_quotes_free_of_delimiter (data q : GoString) (hq : q ∈ parseQuotes data) :
    ¬ delimiter <:+: q := by
  rw [parseQuotes_eq] at hq
  exact splitLoop_not_infix delimiter delimiter_ne_nil _ data (Nat.le_refl _) q hq

/-- Witness of C8: the second piece of `"A\n%\n%\n%\nB"`, which is `"%"`. -/
theorem parsed_quotes_free_of_delimiter_witness :
    [37] ∈ parseQuotes [65, 10, 37, 10, 37, 10, 37, 10, 66] ∧ ¬ delimiter <:+: ([37] : GoString) :=
  ⟨by decide,
    parsed_quotes_free_of_delimiter [65, 10, 37, 10, 37, 10, 37, 10, 66] [37] (by decide)⟩

/-- C10: splitting any source text on `"\n%\n"` yields at least one quote, so selection from a
loaded store never ends in the empty-store panic and returns a (text, index) pair; the empty text
yields the single empty quote. -/
theorem parsed_store_nonempty (data : GoString) :
    1 ≤ (parseQuotes data).length ∧
      (∀ (strictMode : Bool) (r : Nat),
        randomQuoteFormattedForDelivery (parseQuotes data) strictMode r
          ≠ .error .invalidArgumentToIntn ∧
        ∃ p : GoString × Nat,
          randomQuoteFormattedForDelivery (parseQuotes data) strictMode r = .ok p) ∧
      parseQuotes [] = [[]] := by
  have hne : parseQuotes data ≠ [] := by
    rw [parseQuotes_eq]
    exact splitLoop_ne_nil _ _ _
  have hlen : (parseQuotes data).length ≠ 0 := fun h => hne (List.length_eq_zero.mp h)
  refine ⟨Nat.pos_of_ne_zero hlen, fun strictMode r => ?_, by decide⟩
  have hi : r % (parseQuotes data).length < (parseQuotes data).length :=
    Nat.mod_lt _ (Nat.pos_of_ne_zero hlen)
  have h := randomQuote_of_draw (parseQuotes data) strictMode r _ hi (Intn_ok _ _ hlen)
  rw [h]
  exact ⟨fun hc => Except.noConfusion hc, _, rfl⟩

/-- C7: splitting on `"\n%\n"` recovers the quotes in order: for a non-empty list of texts none of
which holds the byte `'%'`, the parse of the texts joined with `"\n%\n"` is that list; and the
parse of `"A\n%\nB\n%\nC"` is `["A", "B", "C"]`. -/
theorem parse_join_roundtrip (l : List GoString) (hne : l ≠ [])
    (hp : ∀ x ∈ l, percent ∉ x) :
    parseQuotes (Join l delimiter) = l ∧
      parseQuotes [65, 10, 37, 10, 66, 10, 37, 10, 67] = [[65], [66], [67]] := by
  refine ⟨?_, by decide⟩
  rw [parseQuotes_eq, Count_Join l hp]
  apply splitLoop_Join l hne hp
  omega

/-- Witness of C7: the three quotes `"A"`, `"B"`, `"C"`, whose join is `"A\n%\nB\n%\nC"`. -/
theorem parse_join_roundtrip_witness :
    ([[65], [66], [67]] : List GoString) ≠ [] ∧
      (∀ x ∈ ([[65], [66], [67]] : List GoString), percent ∉ x) ∧
      Join [[65], [66], [67]] delimiter = [65, 10, 37, 10, 66, 10, 37, 10, 67] ∧
      parseQuotes (Join [[65], [66], [67]] delimiter) = [[65], [66], [67]] :=
  ⟨by decide, by decide, by decide,
    (parse_join_roundtrip [[65], [66], [67]] (by decide) (by decide)).1⟩

end Qotd
